import Mathlib

/-!
Verification of nurkel: admission check, dependent-set tracker and module registration.

A shallow embedding of `src/util.h` (the `CHECK` / `NAPI_OK` assertion helpers and the
`NURKEL_READY` admission-check template) and of `src/nurkel.c` (the registration table
`funcs` and the loop of `nurkel_init`), followed by the properties proved about them.
The `nurkel_dlist_*` functions are declared in `util.h` but defined elsewhere; they are
modelled from the specification (sections 3 and 4.3) as a doubly linked list.

Conventions of the embedding:
* a C pointer is a natural number, `NULL` is `0`;
* a C function that can reach `nurkel_assert_fail` returns `Except AssertFailure α`:
  `.ok v` is a normal `return v`, `.error f` is the process being terminated by the failed
  assertion `f`;
* C enums are inductive types with one constructor per enumerator.
-/

namespace Nurkel

/-! ## Definitions: assertion helpers (`util.h`, lines 16-24) -/

/-- A C pointer; only its being `NULL` or not is ever inspected. -/
abbrev Ptr := Nat

/-- The null pointer. -/
def NULL : Ptr := 0

/-- Record of a failed assertion: the stringified expression `#expr` handed to
`nurkel_assert_fail`.  (`__FILE__` and `__LINE__` depend on the expansion site and are
not recorded.) -/
structure AssertFailure where
  expr : String
deriving DecidableEq

/-- Modelled from the spec: `nurkel_assert_fail` is only declared in `util.h` (line 135),
its body is not among the sources.  Spec section 4.4 and section 7 (4): programming-error
assertions are "fatal, process-terminating, never surfaced as a normal error value", so a
call never returns to its caller: the computation ends in `.error`. -/
def nurkel_assert_fail {α : Type} (expr : String) : Except AssertFailure α :=
  .error ⟨expr⟩

/-- `CHECK(expr)`: `if (!(expr)) nurkel_assert_fail(__FILE__, __LINE__, #expr);` -/
def CHECK (expr : Bool) (text : String) : Except AssertFailure Unit :=
  if !expr then nurkel_assert_fail text else pure ()

/-! ## Definitions: resource state and the admission check (`util.h`, lines 201-221) -/

/-- Modelled from the spec: `enum nurkel_state` is declared in `common.h`, which is not
among the sources.  Spec section 4.1: "States: `opening`, `open`, `closing`, `closed`". -/
inductive nurkel_state where
  | nurkel_state_opening
  | nurkel_state_open
  | nurkel_state_closing
  | nurkel_state_closed
deriving DecidableEq

/-- Modelled from the spec: `enum nurkel_state_err` is declared in `common.h`, which is not
among the sources.  Spec section 4.1: `ready(resource) -> Ok | Rejected(reason)` with the
reasons `opening`, `closing`, `closed`; these are the four enumerators `NURKEL_READY`
returns. -/
inductive nurkel_state_err where
  | nurkel_state_err_ok
  | nurkel_state_err_opening
  | nurkel_state_err_closing
  | nurkel_state_err_closed
deriving DecidableEq

open nurkel_state nurkel_state_err

/-- The fields of a resource (`nurkel_tree_t` or `nurkel_tx_t`, the `type` argument of
`NURKEL_READY`) that the admission check reads through `name->...`. -/
structure nurkel_resource_t where
  close_worker : Ptr
  state : nurkel_state
  must_cleanup : Bool
deriving DecidableEq

/-- Lines 218-220 of `util.h`, the tail of the admission check:
`CHECK(name->must_cleanup == false); return nurkel_state_err_ok;` -/
def NURKEL_READY_tail (name : nurkel_resource_t) : Except AssertFailure nurkel_state_err := do
  CHECK (name.must_cleanup == false) "name->must_cleanup == false"
  pure nurkel_state_err_ok

/-- The body of `nurkel_ ## name ## _ready(type *name)` generated by `NURKEL_READY`
(`util.h`, lines 201-221), statement by statement.  The inner `if` chain has no final
`else`: a state matching none of the three tests falls through to the tail. -/
def NURKEL_READY (name : nurkel_resource_t) : Except AssertFailure nurkel_state_err :=
  if name.close_worker ≠ NULL then
    pure nurkel_state_err_closing
  else if name.state ≠ nurkel_state_open then
    if name.state = nurkel_state_closed then
      pure nurkel_state_err_closed
    else if name.state = nurkel_state_opening then
      pure nurkel_state_err_opening
    else if name.state = nurkel_state_closing then
      pure nurkel_state_err_closing
    else
      NURKEL_READY_tail name
  else
    NURKEL_READY_tail name

/-- One element of the anonymous struct array `funcs`: the exported property name and the
callback, the latter identified by the C symbol the function pointer refers to. -/
structure func_entry where
  name : String
  callback : String
deriving DecidableEq

/-- `#define F(name) { #name, nurkel_ ## name }` -/
def F (name : String) : func_entry :=
  ⟨name, "nurkel_" ++ name⟩

/-- The table `funcs[]` of `nurkel_init` (`nurkel.c`, lines 38-91), in source order. -/
def funcs : List func_entry := [
  F "init",
  F "open",
  F "close",
  F "root_hash_sync",
  F "root_hash",
  F "destroy_sync",
  F "destroy",
  F "hash_sync",
  F "hash",
  F "inject_sync",
  F "inject",
  F "get_sync",
  F "get",
  F "has_sync",
  F "has",
  F "insert_sync",
  F "insert",
  F "remove_sync",
  F "remove",
  F "prove_sync",
  F "prove",
  F "verify_sync",
  F "verify",
  F "compact_sync",
  F "compact",
  F "stat_sync",
  F "stat",
  F "tx_init",
  F "tx_open",
  F "tx_close",
  F "tx_root_hash_sync",
  F "tx_root_hash",
  F "tx_get_sync",
  F "tx_get",
  F "tx_has_sync",
  F "tx_has",
  F "tx_insert_sync",
  F "tx_insert",
  F "tx_remove_sync",
  F "tx_remove",
  F "tx_prove_sync",
  F "tx_prove",
  F "tx_commit_sync",
  F "tx_commit",
  F "tx_clear_sync",
  F "tx_clear",
  F "tx_inject_sync",
  F "tx_inject"
]

/-- The property names of the registration table, in source order. -/
def func_names : List String :=
  funcs.map func_entry.name

/-- The suffix that marks a synchronous entry point. -/
def sync_suffix : String := "_sync"

/-- The name of the synchronous variant of an operation. -/
def sync_name (name : String) : String :=
  name ++ sync_suffix

/-- The Store operations of spec section 6 that exist in a synchronous and an asynchronous
form, under their registered names: root-hash, get, has, insert, remove, inject, prove,
verify, compact, stat, and the transaction-scoped get, has, insert, remove, prove, commit,
clear, inject. -/
def store_ops_dual : List String := [
  "root_hash", "get", "has", "insert", "remove", "inject", "prove", "verify", "compact",
  "stat", "tx_get", "tx_has", "tx_insert", "tx_remove", "tx_prove", "tx_commit",
  "tx_clear", "tx_inject"
]

/-- The lifecycle operations of spec section 6 (`store_open`, `store_close`, `tx_open`,
`tx_close`) under their registered names. -/
def store_ops_lifecycle : List String :=
  ["open", "close", "tx_open", "tx_close"]

/-- Every operation listed in spec section 6, under its registered name. -/
def store_ops : List String :=
  store_ops_lifecycle ++ store_ops_dual

/-- `napi_status` of `node_api.h`: an integer status code. -/
abbrev napi_status := Nat

/-- `napi_ok`, the first enumerator of `napi_status`. -/
def napi_ok : napi_status := 0

/-- `NAPI_OK(expr)`: `if ((expr) != napi_ok) nurkel_assert_fail(__FILE__, __LINE__, #expr);` -/
def NAPI_OK (expr : napi_status) (text : String) : Except AssertFailure Unit :=
  if expr ≠ napi_ok then nurkel_assert_fail text else pure ()

/-- A JavaScript function value made by `napi_create_function`: its name and the native
callback behind it. -/
structure js_function where
  name : String
  callback : String
deriving DecidableEq

/-- A JavaScript object as far as `nurkel_init` touches it: the named properties holding
functions, in the order in which they were first set. -/
abbrev js_object := List (String × js_function)

/-- The host side of `napi_create_function(env, name, NAPI_AUTO_LENGTH, cb, NULL, &fn)`.
The host runtime is external; `status k` is the status it answers to the `k`-th N-API
call of the initialisation.  On `napi_ok` the out-parameter holds a function of that name
over that callback. -/
def napi_create_function (status : Nat → napi_status) (k : Nat) (name : String)
    (cb : String) : napi_status × js_function :=
  (status k, ⟨name, cb⟩)

/-- Assignment `object[name] = value`: an existing property of that name is overwritten in
place, otherwise the property is added. -/
def js_set (object : js_object) (name : String) (value : js_function) : js_object :=
  if object.any (fun p => p.1 == name) then
    object.map (fun p => if p.1 = name then (name, value) else p)
  else
    object ++ [(name, value)]

/-- Reading `object[name]`: the function held by the first property of that name, if the
object has one. -/
def js_get : js_object → String → Option js_function
  | [], _ => none
  | p :: rest, name => if p.1 = name then some p.2 else js_get rest name

/-- The host side of `napi_set_named_property(env, object, name, value)`: on `napi_ok` the
property is set, on any other status the object is left as it was. -/
def napi_set_named_property (status : Nat → napi_status) (k : Nat) (object : js_object)
    (name : String) (value : js_function) : napi_status × js_object :=
  if status k = napi_ok then (napi_ok, js_set object name value) else (status k, object)

/-- The `for` loop of `nurkel_init` (`nurkel.c`, lines 93-106) over the entries of the
table that are still to be registered; `k` counts the N-API calls made so far. -/
def nurkel_init_loop (status : Nat → napi_status) :
    List func_entry → Nat → js_object → Except AssertFailure js_object
  | [], _, exports => pure exports
  | entry :: rest, k, exports => do
    let name := entry.name
    let callback := entry.callback
    let created := napi_create_function status k name callback
    NAPI_OK created.1 "napi_create_function(env, name, NAPI_AUTO_LENGTH, callback, NULL, &fn)"
    let fn := created.2
    let set := napi_set_named_property status (k + 1) exports name fn
    NAPI_OK set.1 "napi_set_named_property(env, exports, name, fn)"
    nurkel_init_loop status rest (k + 2) set.2

/-- The module initialiser `nurkel_init(env, exports)`: runs the loop over the whole table
and then executes `return 0;`.  The result pairs the returned `napi_value` (`0`, the null
pointer) with the exports object as the loop left it. -/
def nurkel_init (status : Nat → napi_status) (exports : js_object) :
    Except AssertFailure (Ptr × js_object) := do
  let exports1 ← nurkel_init_loop status funcs 0 exports
  pure (0, exports1)

/-! ## Definitions: the dependent-set tracker (`util.h`, lines 165-195) -/

/-- Modelled from the spec: `struct nurkel_dlist_entry_s` is only forward-declared in
`util.h` (line 169), its definition is not among the sources.  Spec section 3: a
Dependent-Set Entry "holds the registered value and intrusive links"; section 4.3: the
structure is doubly linked, so the links are a predecessor and a successor pointer. -/
structure nurkel_dlist_entry_t where
  value : Ptr
  prev : Ptr
  next : Ptr
deriving DecidableEq

/-- Modelled from the spec: `struct nurkel_dlist_s` is only forward-declared in `util.h`
(line 170), its definition is not among the sources.  Spec section 4.3: "a doubly linked
structure over opaque entries" with `len(list) -> count` and
`iter(list) -> first-entry-or-null`.  The model keeps the first entry (`head`), the count
(`len`) and, with the list, the memory its entries live in: `mem a` is the entry stored at
address `a` (`none` when nothing is allocated there) and `brk` is the next address the
allocator hands out. -/
structure nurkel_dlist_t where
  mem : Ptr → Option nurkel_dlist_entry_t
  brk : Ptr
  head : Ptr
  len : Nat

/-- Memory with the cell at address `a` replaced by `c`. -/
def mem_write (mem : Ptr → Option nurkel_dlist_entry_t) (a : Ptr)
    (c : Option nurkel_dlist_entry_t) : Ptr → Option nurkel_dlist_entry_t :=
  fun x => if x = a then c else mem x

/-- The assignment `a->next = v` (no effect when nothing is allocated at `a`). -/
def set_next (mem : Ptr → Option nurkel_dlist_entry_t) (a v : Ptr) :
    Ptr → Option nurkel_dlist_entry_t :=
  match mem a with
  | some c => mem_write mem a (some { c with next := v })
  | none => mem

/-- The assignment `a->prev = v` (no effect when nothing is allocated at `a`). -/
def set_prev (mem : Ptr → Option nurkel_dlist_entry_t) (a v : Ptr) :
    Ptr → Option nurkel_dlist_entry_t :=
  match mem a with
  | some c => mem_write mem a (some { c with prev := v })
  | none => mem

/-- Modelled from the spec: `nurkel_dlist_alloc` is only declared in `util.h` (line 174),
its body is not among the sources.  It gives the empty tracker: no entry, count zero.
Addresses start at `1`, `0` being `NULL`. -/
def nurkel_dlist_alloc : nurkel_dlist_t :=
  ⟨fun _ => none, 1, NULL, 0⟩

/-- Modelled from the spec: `nurkel_dlist_len` is only declared in `util.h` (line 180), its
body is not among the sources.  Spec section 4.3: `len(list) -> count`. -/
def nurkel_dlist_len (list : nurkel_dlist_t) : Nat :=
  list.len

/-- Modelled from the spec: `nurkel_dlist_insert` is only declared in `util.h` (line 189),
its body is not among the sources.  Spec section 4.3: `insert(list, value) -> entry`, in
O(1); section 3: the entry is "an opaque token returned by insertion".  A fresh entry is
allocated, holds the value, and is linked in front of the current first entry; the count
grows by one and the address of the new entry is the token. -/
def nurkel_dlist_insert (list : nurkel_dlist_t) (item : Ptr) : Ptr × nurkel_dlist_t :=
  let entry := list.brk
  let mem1 := mem_write list.mem entry (some ⟨item, NULL, list.head⟩)
  let mem2 := if list.head ≠ NULL then set_prev mem1 list.head entry else mem1
  (entry, ⟨mem2, list.brk + 1, entry, list.len + 1⟩)

/-- Modelled from the spec: `nurkel_dlist_remove` is only declared in `util.h` (line 183),
its body is not among the sources.  Spec section 4.3: `remove(list, entry)`, O(1) "given
its entry token", "calling twice is a caller defect"; section 8: "removing an entry twice
is rejected/asserted, not silently ignored".  An entry that is not (or no longer)
allocated fails an assertion; otherwise the entry is unlinked from its neighbours (or from
the head when it is first), the count drops by one and the entry is freed. -/
def nurkel_dlist_remove (list : nurkel_dlist_t) (entry : Ptr) :
    Except AssertFailure nurkel_dlist_t :=
  match list.mem entry with
  | none => nurkel_assert_fail "entry is registered"
  | some e =>
    let mem1 := if e.prev ≠ NULL then set_next list.mem e.prev e.next else list.mem
    let head1 := if e.prev ≠ NULL then list.head else e.next
    let mem2 := if e.next ≠ NULL then set_prev mem1 e.next e.prev else mem1
    pure ⟨mem_write mem2 entry none, list.brk, head1, list.len - 1⟩

/-- Modelled from the spec: `nurkel_dlist_get_value` is only declared in `util.h`
(line 186), its body is not among the sources.  The value an entry was registered with
(`NULL` for an address that holds no entry); the list argument supplies the memory the
entry lives in. -/
def nurkel_dlist_get_value (list : nurkel_dlist_t) (entry : Ptr) : Ptr :=
  match list.mem entry with
  | some e => e.value
  | none => NULL

/-- Modelled from the spec: `nurkel_dlist_iter` is only declared in `util.h` (line 192),
its body is not among the sources.  Spec section 4.3:
`iter(list) -> first-entry-or-null`. -/
def nurkel_dlist_iter (list : nurkel_dlist_t) : Ptr :=
  list.head

/-- Modelled from the spec: `nurkel_dlist_iter_next` is only declared in `util.h`
(line 195), its body is not among the sources.  Spec section 4.3:
`iter_next(entry) -> next-entry-or-null`; the list argument supplies the memory the entry
lives in. -/
def nurkel_dlist_iter_next (list : nurkel_dlist_t) (entry : Ptr) : Ptr :=
  match list.mem entry with
  | some e => e.next
  | none => NULL

/-- Inserts the items one after the other; gives the entry tokens in the order of the
insertions and the resulting tracker. -/
def insert_all : nurkel_dlist_t → List Ptr → List Ptr × nurkel_dlist_t
  | list, [] => ([], list)
  | list, item :: items =>
    let first := nurkel_dlist_insert list item
    let rest := insert_all first.2 items
    (first.1 :: rest.1, rest.2)

/-- Removes the entries one after the other, stopping at the first failed assertion. -/
def remove_all : nurkel_dlist_t → List Ptr → Except AssertFailure nurkel_dlist_t
  | list, [] => pure list
  | list, entry :: entries => do
    let list1 ← nurkel_dlist_remove list entry
    remove_all list1 entries

/-- A stretch of the linked structure: entered at `q` coming from `p`, the successor links
run through exactly the addresses of `l`, every predecessor link points one step back, the
last entry visited is `p1` and its successor link is `q1`. -/
def Seg (mem : Ptr → Option nurkel_dlist_entry_t) :
    Ptr → Ptr → List Ptr → Ptr → Ptr → Prop
  | p, q, [], p1, q1 => p1 = p ∧ q1 = q
  | p, q, a :: l, p1, q1 =>
    q = a ∧ a ≠ NULL ∧ ∃ e, mem a = some e ∧ e.prev = p ∧ Seg mem a e.next l p1 q1

/-- The tracker `d` holds exactly the entries `l`, first to last: the links from `head`
form a null-terminated doubly linked chain through `l`, no address occurs twice, the count
is the number of entries, and every entry lies below the allocation mark. -/
def Holds (d : nurkel_dlist_t) (l : List Ptr) : Prop :=
  (∃ last, Seg d.mem NULL d.head l last NULL) ∧ l.Nodup ∧ d.len = l.length ∧
    (∀ a ∈ l, a < d.brk) ∧ 0 < d.brk

/-! ## Theorems: the admission check -/

/-- C1: a resource with a pending close work item (`close_worker` not `NULL`) is rejected
with `closing`, whatever its `state` and `must_cleanup` fields hold. -/
theorem ready_close_pending (r : nurkel_resource_t) (h : r.close_worker ≠ NULL) :
    NURKEL_READY r = .ok nurkel_state_err_closing := by
  simp [NURKEL_READY, h, pure, Except.pure]

/-- C1, at a concrete resource: close pending while the state field still says `open`. -/
theorem ready_close_pending_witness :
    (⟨7, nurkel_state_open, false⟩ : nurkel_resource_t).close_worker ≠ NULL ∧
      NURKEL_READY ⟨7, nurkel_state_open, false⟩ = .ok nurkel_state_err_closing :=
  ⟨by decide, ready_close_pending ⟨7, nurkel_state_open, false⟩ (by decide)⟩

/-- C2: the admission check returns `ok` exactly when no close is pending, the state is
`open` and `must_cleanup` is false; in particular no resource in state `opening`,
`closing` or `closed` is admitted. -/
theorem ready_ok_iff (r : nurkel_resource_t) :
    (NURKEL_READY r = .ok nurkel_state_err_ok ↔
      r.close_worker = NULL ∧ r.state = nurkel_state_open ∧ r.must_cleanup = false) ∧
    (r.state ≠ nurkel_state_open → NURKEL_READY r ≠ .ok nurkel_state_err_ok) := by
  obtain ⟨w, s, m⟩ := r
  by_cases hw : w = NULL <;> cases s <;> cases m <;>
    simp [NURKEL_READY, NURKEL_READY_tail, CHECK, nurkel_assert_fail, hw, pure, Except.pure,
      bind, Except.bind]

/-- C2, at the clean open resource (admitted) and at a resource in state `opening` (not
admitted). -/
theorem ready_ok_iff_witness :
    NURKEL_READY ⟨NULL, nurkel_state_open, false⟩ = .ok nurkel_state_err_ok ∧
      NURKEL_READY ⟨NULL, nurkel_state_opening, false⟩ ≠ .ok nurkel_state_err_ok :=
  ⟨(ready_ok_iff ⟨NULL, nurkel_state_open, false⟩).1.2 ⟨rfl, rfl, rfl⟩,
   (ready_ok_iff ⟨NULL, nurkel_state_opening, false⟩).2 (by decide)⟩

/-- C3: with no close pending, a resource whose state is not `open` is rejected with the
reason named after its state: `closed`, `opening`, `closing`. -/
theorem ready_rejects_by_state (r : nurkel_resource_t) (h : r.close_worker = NULL) :
    (r.state = nurkel_state_closed → NURKEL_READY r = .ok nurkel_state_err_closed) ∧
    (r.state = nurkel_state_opening → NURKEL_READY r = .ok nurkel_state_err_opening) ∧
    (r.state = nurkel_state_closing → NURKEL_READY r = .ok nurkel_state_err_closing) := by
  refine ⟨fun hs => ?_, fun hs => ?_, fun hs => ?_⟩ <;>
    simp [NURKEL_READY, h, hs, pure, Except.pure]

/-- C3, at the three concrete resources with a null `close_worker` and a state other than
`open` (with `must_cleanup` set, which plays no part). -/
theorem ready_rejects_by_state_witness :
    NURKEL_READY ⟨NULL, nurkel_state_closed, true⟩ = .ok nurkel_state_err_closed ∧
    NURKEL_READY ⟨NULL, nurkel_state_opening, true⟩ = .ok nurkel_state_err_opening ∧
    NURKEL_READY ⟨NULL, nurkel_state_closing, true⟩ = .ok nurkel_state_err_closing :=
  ⟨(ready_rejects_by_state ⟨NULL, nurkel_state_closed, true⟩ rfl).1 rfl,
   (ready_rejects_by_state ⟨NULL, nurkel_state_opening, true⟩ rfl).2.1 rfl,
   (ready_rejects_by_state ⟨NULL, nurkel_state_closing, true⟩ rfl).2.2 rfl⟩

/-- C4: with no close pending, state `open` and `must_cleanup` true, the admission check
returns no value at all: it ends in the failed assertion `CHECK(must_cleanup == false)`. -/
theorem ready_dirty_open_aborts (r : nurkel_resource_t) (hw : r.close_worker = NULL)
    (hs : r.state = nurkel_state_open) (hm : r.must_cleanup = true) :
    NURKEL_READY r = .error ⟨"name->must_cleanup == false"⟩ ∧
      ∀ v, NURKEL_READY r ≠ .ok v := by
  have h : NURKEL_READY r = .error ⟨"name->must_cleanup == false"⟩ := by
    simp [NURKEL_READY, NURKEL_READY_tail, CHECK, nurkel_assert_fail, hw, hs, hm, bind,
      Except.bind]
  exact ⟨h, fun v hv => by rw [h] at hv; cases hv⟩

/-- C4, at the concrete resource with a null `close_worker`, state `open` and
`must_cleanup` set. -/
theorem ready_dirty_open_aborts_witness :
    NURKEL_READY ⟨NULL, nurkel_state_open, true⟩ = .error ⟨"name->must_cleanup == false"⟩ ∧
      ∀ v, NURKEL_READY ⟨NULL, nurkel_state_open, true⟩ ≠ .ok v :=
  ready_dirty_open_aborts ⟨NULL, nurkel_state_open, true⟩ rfl rfl rfl

/-- C8: the `must_cleanup` assertion is reached only with no close pending and state
`open`.  A resource with a close pending or in state `opening`, `closing` or `closed` gets
a rejection reason (a returned value other than `ok`, hence no abort), and the outcome is
the same whatever `must_cleanup` holds; conversely an abort implies a null `close_worker`
and state `open`. -/
theorem ready_rejection_ignores_cleanup (r : nurkel_resource_t) :
    (r.close_worker ≠ NULL ∨ r.state ≠ nurkel_state_open →
      (∃ reason, reason ≠ nurkel_state_err_ok ∧ NURKEL_READY r = .ok reason) ∧
      ∀ b, NURKEL_READY { r with must_cleanup := b } = NURKEL_READY r) ∧
    (∀ f, NURKEL_READY r = .error f →
      r.close_worker = NULL ∧ r.state = nurkel_state_open) := by
  obtain ⟨w, s, m⟩ := r
  by_cases hw : w = NULL <;> cases s <;> cases m <;>
    simp [NURKEL_READY, NURKEL_READY_tail, CHECK, nurkel_assert_fail, hw, pure, Except.pure,
      bind, Except.bind]

/-- C8, at a concrete resource with a close pending, state `open` and `must_cleanup` set:
it is rejected (with `closing`) instead of reaching the assertion. -/
theorem ready_rejection_ignores_cleanup_witness :
    (∃ reason, reason ≠ nurkel_state_err_ok ∧
      NURKEL_READY ⟨5, nurkel_state_open, true⟩ = .ok reason) ∧
    ∀ b, NURKEL_READY { (⟨5, nurkel_state_open, true⟩ : nurkel_resource_t) with
      must_cleanup := b } = NURKEL_READY ⟨5, nurkel_state_open, true⟩ :=
  (ready_rejection_ignores_cleanup ⟨5, nurkel_state_open, true⟩).1 (Or.inl (by decide))

/-! ## Theorems: module registration -/

/-- C6 as stated fails: `open` is one of the Store operations of spec section 6 and is
registered, yet the table holds no `open_sync`. -/
theorem open_has_no_sync_variant :
    "open" ∈ store_ops ∧ "open" ∈ func_names ∧ sync_name "open" = "open_sync" ∧
      "open_sync" ∉ func_names := by
  decide

/-- C6, amended: each of root-hash, get, has, insert, remove, inject, prove, verify,
compact, stat and the transaction-scoped get, has, insert, remove, prove, commit, clear,
inject is registered both under its name with the `_sync` suffix and under its plain
name; `open`, `close`, `tx_open` and `tx_close` are registered under their plain names
only. -/
theorem store_ops_registration :
    (∀ op ∈ store_ops_dual, sync_name op ∈ func_names ∧ op ∈ func_names) ∧
    (∀ op ∈ store_ops_lifecycle, op ∈ func_names ∧ sync_name op ∉ func_names) := by
  decide

/-- C6 amended, at the operations `get` (both forms) and `tx_close` (plain form only). -/
theorem store_ops_registration_witness :
    ("get_sync" ∈ func_names ∧ "get" ∈ func_names) ∧
      ("tx_close" ∈ func_names ∧ "tx_close_sync" ∉ func_names) :=
  ⟨store_ops_registration.1 "get" (by decide),
   store_ops_registration.2 "tx_close" (by decide)⟩

/-- Setting a property whose name the object does not have yet appends it. -/
theorem js_set_fresh (object : js_object) (name : String) (value : js_function)
    (h : ∀ p ∈ object, p.1 ≠ name) : js_set object name value = object ++ [(name, value)] := by
  have hany : object.any (fun p => p.1 == name) = false := by
    rw [List.any_eq_false]
    intro p hp
    simpa using h p hp
  simp [js_set, hany]

theorem js_get_map_set (n : String) (v : js_function) (m : String) :
    ∀ o : js_object, js_get (o.map (fun p => if p.1 = n then (n, v) else p)) m =
      if m = n then (if o.any (fun p => p.1 == n) then some v else none) else js_get o m := by
  intro o
  induction o with
  | nil => simp [js_get]
  | cons p o ih =>
    rw [List.map_cons, js_get, ih, List.any_cons, js_get]
    by_cases hp : p.1 = n <;> by_cases hm : m = n
    · subst hm; simp [hp]
    · have hnm : ¬ n = m := fun h => hm h.symm
      have hpm : ¬ p.1 = m := fun h => hm (h.symm.trans hp)
      simp [hp, hm, hnm, hpm]
    · subst hm
      have hb : (p.1 == m) = false := by simpa using hp
      simp only [hp, if_false, if_true]
      rw [hb, Bool.false_or]
    · simp [hp, hm]

theorem js_get_append_new (n : String) (v : js_function) (m : String) (o : js_object)
    (h : ∀ p ∈ o, p.1 ≠ n) :
    js_get (o ++ [(n, v)]) m = if m = n then some v else js_get o m := by
  induction o with
  | nil =>
    by_cases hm : m = n
    · subst hm; simp [js_get]
    · have hnm : ¬ n = m := fun h => hm h.symm
      simp [js_get, hm, hnm]
  | cons p o ih =>
    have ih1 := ih (fun q hq => h q (List.mem_cons_of_mem _ hq))
    rw [List.cons_append, js_get, ih1, js_get]
    by_cases hpm : p.1 = m
    · have hmn : ¬ m = n := fun hmn => h p (List.mem_cons_self _ _) (hpm.trans hmn)
      simp [hpm, hmn]
    · simp [hpm]

/-- Reading a property back after an assignment: the assigned name gives the new value,
every other name gives what it gave before. -/
theorem js_get_set (o : js_object) (n : String) (v : js_function) (m : String) :
    js_get (js_set o n v) m = if m = n then some v else js_get o m := by
  unfold js_set
  by_cases hany : o.any (fun p => p.1 == n) = true
  · rw [if_pos hany, js_get_map_set, hany]; simp
  · rw [if_neg hany, js_get_append_new]
    intro p hp hpn
    exact hany (List.any_eq_true.2 ⟨p, hp, by simpa using hpn⟩)

/-- When every N-API call succeeds, the loop over a table with pairwise distinct names
returns, and afterwards each entry of the table is readable under its name while every
other name reads as before. -/
theorem nurkel_init_loop_get (status : Nat → napi_status) (table : List func_entry) :
    ∀ (k : Nat) (exports : js_object),
      (∀ j, j < 2 * table.length → status (k + j) = napi_ok) →
      (table.map func_entry.name).Nodup →
      ∃ exports1, nurkel_init_loop status table k exports = .ok exports1 ∧
        (∀ e ∈ table, js_get exports1 e.name = some ⟨e.name, e.callback⟩) ∧
        (∀ n, n ∉ table.map func_entry.name → js_get exports1 n = js_get exports n) := by
  induction table with
  | nil =>
    intro k exports _ _
    exact ⟨exports, rfl, fun e he => absurd he (List.not_mem_nil _), fun _ _ => rfl⟩
  | cons e rest ih =>
    intro k exports hst hnd
    have h0 : status k = napi_ok := by
      have := hst 0 (by simp only [List.length_cons]; omega)
      simpa using this
    have h1 : status (k + 1) = napi_ok := hst 1 (by simp only [List.length_cons]; omega)
    rw [List.map_cons, List.nodup_cons] at hnd
    obtain ⟨exports1, hrun, hin, hout⟩ := ih (k + 2) (js_set exports e.name ⟨e.name, e.callback⟩)
      (fun j hj => by
        have := hst (j + 2) (by simp only [List.length_cons]; omega)
        rw [show k + 2 + j = k + (j + 2) by omega]
        exact this)
      hnd.2
    refine ⟨exports1, ?_, ?_, ?_⟩
    · simp [nurkel_init_loop, napi_create_function, napi_set_named_property, NAPI_OK, h0, h1,
        hrun, bind, Except.bind, pure, Except.pure]
    · intro e1 he1
      rcases List.mem_cons.1 he1 with rfl | he1
      · rw [hout _ hnd.1, js_get_set, if_pos rfl]
      · exact hin e1 he1
    · intro n hn
      rw [List.map_cons, List.mem_cons, not_or] at hn
      rw [hout n hn.2, js_get_set, if_neg hn.1]

/-- When every N-API call succeeds, the loop over a table with pairwise distinct names,
none of them a property of `exports` yet, adds one property per entry, in table order. -/
theorem nurkel_init_loop_ok (status : Nat → napi_status) (table : List func_entry) :
    ∀ (k : Nat) (exports : js_object),
      (∀ j, j < 2 * table.length → status (k + j) = napi_ok) →
      (table.map func_entry.name).Nodup →
      (∀ e ∈ table, ∀ p ∈ exports, p.1 ≠ e.name) →
      nurkel_init_loop status table k exports =
        .ok (exports ++ table.map (fun e => (e.name, (⟨e.name, e.callback⟩ : js_function)))) := by
  induction table with
  | nil => intro k exports _ _ _; simp [nurkel_init_loop, pure, Except.pure]
  | cons e rest ih =>
    intro k exports hst hnd hfresh
    have h0 : status k = napi_ok := by
      have := hst 0 (by simp only [List.length_cons]; omega)
      simpa using this
    have h1 : status (k + 1) = napi_ok := hst 1 (by simp only [List.length_cons]; omega)
    rw [List.map_cons, List.nodup_cons] at hnd
    have hset : js_set exports e.name ⟨e.name, e.callback⟩ =
        exports ++ [(e.name, ⟨e.name, e.callback⟩)] :=
      js_set_fresh exports e.name _ (fun p hp => hfresh e (List.mem_cons_self _ _) p hp)
    have hrest := ih (k + 2) (exports ++ [(e.name, ⟨e.name, e.callback⟩)])
      (fun j hj => by
        have := hst (j + 2) (by simp only [List.length_cons]; omega)
        rw [show k + 2 + j = k + (j + 2) by omega]
        exact this)
      hnd.2
      (fun e1 he1 p hp => by
        rcases List.mem_append.1 hp with hp | hp
        · exact hfresh e1 (List.mem_cons_of_mem _ he1) p hp
        · have hpe : p = (e.name, ⟨e.name, e.callback⟩) := by simpa using hp
          intro heq
          apply hnd.1
          rw [hpe] at heq
          exact List.mem_map.2 ⟨e1, he1, heq.symm⟩)
    simp [nurkel_init_loop, napi_create_function, napi_set_named_property, NAPI_OK, h0, h1,
      hset, hrest, bind, Except.bind, pure, Except.pure]

/-- When one of the N-API calls of the loop answers a status other than `napi_ok`, the loop
ends in a failed assertion. -/
theorem nurkel_init_loop_fail (status : Nat → napi_status) (table : List func_entry) :
    ∀ (k : Nat) (exports : js_object),
      (∃ j, j < 2 * table.length ∧ status (k + j) ≠ napi_ok) →
      ∃ f, nurkel_init_loop status table k exports = .error f := by
  induction table with
  | nil => intro k exports ⟨j, hj, _⟩; simp at hj
  | cons e rest ih =>
    intro k exports ⟨j, hj, hbad⟩
    by_cases h0 : status k = napi_ok
    · by_cases h1 : status (k + 1) = napi_ok
      · have hj2 : 2 ≤ j := by
          rcases j with _ | _ | j
          · exact absurd h0 (by simpa using hbad)
          · exact absurd h1 hbad
          · omega
        obtain ⟨f, hf⟩ := ih (k + 2) (js_set exports e.name ⟨e.name, e.callback⟩)
          ⟨j - 2, by simp only [List.length_cons] at hj; omega, by
            rw [show k + 2 + (j - 2) = k + j by omega]; exact hbad⟩
        exact ⟨f, by
          simp [nurkel_init_loop, napi_create_function, napi_set_named_property, NAPI_OK, h0,
            h1, hf, bind, Except.bind, pure, Except.pure]⟩
      · exact ⟨⟨"napi_set_named_property(env, exports, name, fn)"⟩, by
          simp [nurkel_init_loop, napi_create_function, napi_set_named_property, NAPI_OK, h0,
            h1, nurkel_assert_fail, bind, Except.bind, pure, Except.pure]⟩
    · exact ⟨⟨"napi_create_function(env, name, NAPI_AUTO_LENGTH, callback, NULL, &fn)"⟩, by
        simp [nurkel_init_loop, napi_create_function, NAPI_OK, h0, nurkel_assert_fail, bind,
          Except.bind]⟩

/-- The registered names are pairwise distinct. -/
theorem func_names_nodup : func_names.Nodup := by
  decide

/-- C9: the table has 48 entries with pairwise distinct names.  When each of the 96 N-API
calls succeeds, `nurkel_init` returns `0`, and in `exports` as it is afterwards every entry
of the table is readable under its name as a function over the callback of that entry (no
registration is overwritten by a later one), while every name outside the table reads as
before; when `exports` had no property of one of these names beforehand (a fresh module
object), it has gained exactly the 48 properties, in table order.  When one of the calls
answers a status other than `napi_ok`, `nurkel_init` does not return: it ends in the
failed assertion. -/
theorem nurkel_init_registers (status : Nat → napi_status) (exports : js_object) :
    funcs.length = 48 ∧ func_names.Nodup ∧
    ((∀ k, k < 96 → status k = napi_ok) →
      ∃ exports1, nurkel_init status exports = .ok (0, exports1) ∧
        (∀ e ∈ funcs, js_get exports1 e.name = some ⟨e.name, e.callback⟩) ∧
        (∀ n, n ∉ func_names → js_get exports1 n = js_get exports n) ∧
        ((∀ n ∈ func_names, ∀ p ∈ exports, p.1 ≠ n) →
          exports1 = exports ++
            funcs.map (fun e => (e.name, (⟨e.name, e.callback⟩ : js_function))))) ∧
    ((∃ k, k < 96 ∧ status k ≠ napi_ok) → ∃ f, nurkel_init status exports = .error f) := by
  have hlen : funcs.length = 48 := by decide
  refine ⟨hlen, func_names_nodup, fun hok => ?_, fun hbad => ?_⟩
  · have hst : ∀ j, j < 2 * funcs.length → status (0 + j) = napi_ok :=
      fun j hj => by rw [Nat.zero_add]; exact hok j (by omega)
    obtain ⟨exports1, hrun, hin, hout⟩ :=
      nurkel_init_loop_get status funcs 0 exports hst func_names_nodup
    refine ⟨exports1, ?_, hin, hout, fun hfresh => ?_⟩
    · simp [nurkel_init, hrun, bind, Except.bind, pure, Except.pure]
    · have h := nurkel_init_loop_ok status funcs 0 exports hst func_names_nodup
        (fun e he p hp => hfresh e.name (List.mem_map.2 ⟨e, he, rfl⟩) p hp)
      rw [hrun] at h
      exact Except.ok.inj h
  · obtain ⟨k, hk, hbad⟩ := hbad
    obtain ⟨f, hf⟩ := nurkel_init_loop_fail status funcs 0 exports
      ⟨k, by omega, by rw [Nat.zero_add]; exact hbad⟩
    exact ⟨f, by simp [nurkel_init, hf, bind, Except.bind]⟩

/-- C9, at a fresh (empty) exports object: with a host that answers `napi_ok` to every
call `0` is returned and, among the 48 registered functions, `tx_commit` reads back as a
function over `nurkel_tx_commit`; with a host whose sixth call answers status `1` the
initialisation ends in a failed assertion. -/
theorem nurkel_init_registers_witness :
    (∃ exports1, nurkel_init (fun _ => napi_ok) [] = .ok (0, exports1) ∧
        js_get exports1 "tx_commit" = some ⟨"tx_commit", "nurkel_tx_commit"⟩ ∧
        exports1 = funcs.map (fun e => (e.name, (⟨e.name, e.callback⟩ : js_function)))) ∧
      ∃ f, nurkel_init (fun k => if k = 5 then 1 else napi_ok) [] = .error f :=
  ⟨(fun ⟨exports1, hrun, hin, _, hall⟩ =>
      ⟨exports1, hrun, hin (F "tx_commit") (by decide),
        hall (fun _ _ p hp => absurd hp (List.not_mem_nil p))⟩)
      ((nurkel_init_registers (fun _ => napi_ok) []).2.2.1 (fun _ _ => rfl)),
   (nurkel_init_registers (fun k => if k = 5 then 1 else napi_ok) []).2.2.2
      ⟨5, by decide, by decide⟩⟩

/-! ## Theorems: the dependent-set tracker -/

theorem seg_nil (mem : Ptr → Option nurkel_dlist_entry_t) (p q p1 q1 : Ptr) :
    Seg mem p q [] p1 q1 ↔ p1 = p ∧ q1 = q :=
  Iff.rfl

theorem seg_cons (mem : Ptr → Option nurkel_dlist_entry_t) (p q a : Ptr) (l : List Ptr)
    (p1 q1 : Ptr) :
    Seg mem p q (a :: l) p1 q1 ↔
      q = a ∧ a ≠ NULL ∧ ∃ e, mem a = some e ∧ e.prev = p ∧ Seg mem a e.next l p1 q1 :=
  Iff.rfl

theorem mem_write_other (mem : Ptr → Option nurkel_dlist_entry_t) (a : Ptr)
    (c : Option nurkel_dlist_entry_t) (x : Ptr) (h : x ≠ a) : mem_write mem a c x = mem x := by
  simp [mem_write, h]

theorem set_next_other (mem : Ptr → Option nurkel_dlist_entry_t) (a v x : Ptr) (h : x ≠ a) :
    set_next mem a v x = mem x := by
  unfold set_next
  cases mem a <;> simp [mem_write, h]

theorem set_prev_other (mem : Ptr → Option nurkel_dlist_entry_t) (a v x : Ptr) (h : x ≠ a) :
    set_prev mem a v x = mem x := by
  unfold set_prev
  cases mem a <;> simp [mem_write, h]

theorem set_next_same (mem : Ptr → Option nurkel_dlist_entry_t) (a v : Ptr)
    (c : nurkel_dlist_entry_t) (h : mem a = some c) :
    set_next mem a v a = some { c with next := v } := by
  simp [set_next, h, mem_write]

theorem set_prev_same (mem : Ptr → Option nurkel_dlist_entry_t) (a v : Ptr)
    (c : nurkel_dlist_entry_t) (h : mem a = some c) :
    set_prev mem a v a = some { c with prev := v } := by
  simp [set_prev, h, mem_write]

/-- A stretch only depends on the cells it runs through. -/
theorem seg_frame {mem mem1 : Ptr → Option nurkel_dlist_entry_t} :
    ∀ (l : List Ptr) (p q p1 q1 : Ptr), (∀ a ∈ l, mem1 a = mem a) →
      Seg mem p q l p1 q1 → Seg mem1 p q l p1 q1 := by
  intro l
  induction l with
  | nil => intro p q p1 q1 _ h; exact h
  | cons a l ih =>
    intro p q p1 q1 hm h
    obtain ⟨hq, ha, e, he, hp, hs⟩ := (seg_cons _ _ _ _ _ _ _).1 h
    exact (seg_cons _ _ _ _ _ _ _).2 ⟨hq, ha, e, by rw [hm a (List.mem_cons_self _ _)]; exact he,
      hp, ih a e.next p1 q1 (fun x hx => hm x (List.mem_cons_of_mem _ hx)) hs⟩

/-- A stretch through `l1 ++ l2` is a stretch through `l1` followed by one through `l2`. -/
theorem seg_append {mem : Ptr → Option nurkel_dlist_entry_t} :
    ∀ (l1 l2 : List Ptr) (p q p1 q1 : Ptr),
      Seg mem p q (l1 ++ l2) p1 q1 ↔
        ∃ pm qm, Seg mem p q l1 pm qm ∧ Seg mem pm qm l2 p1 q1 := by
  intro l1
  induction l1 with
  | nil =>
    intro l2 p q p1 q1
    constructor
    · intro h
      exact ⟨p, q, ⟨rfl, rfl⟩, h⟩
    · rintro ⟨pm, qm, ⟨rfl, rfl⟩, h⟩
      exact h
  | cons a l ih =>
    intro l2 p q p1 q1
    rw [List.cons_append, seg_cons]
    constructor
    · rintro ⟨hq, ha, e, he, hp, hs⟩
      obtain ⟨pm, qm, h1, h2⟩ := (ih l2 a e.next p1 q1).1 hs
      exact ⟨pm, qm, (seg_cons _ _ _ _ _ _ _).2 ⟨hq, ha, e, he, hp, h1⟩, h2⟩
    · rintro ⟨pm, qm, h1, h2⟩
      obtain ⟨hq, ha, e, he, hp, hs⟩ := (seg_cons _ _ _ _ _ _ _).1 h1
      exact ⟨hq, ha, e, he, hp, (ih l2 a e.next p1 q1).2 ⟨pm, qm, hs, h2⟩⟩

/-- No entry of a stretch is the null pointer. -/
theorem seg_ne_null {mem : Ptr → Option nurkel_dlist_entry_t} :
    ∀ (l : List Ptr) (p q p1 q1 : Ptr), Seg mem p q l p1 q1 → ∀ x ∈ l, x ≠ NULL := by
  intro l
  induction l with
  | nil => intro p q p1 q1 _ x hx; cases hx
  | cons a l ih =>
    intro p q p1 q1 h x hx
    obtain ⟨_, ha, e, _, _, hs⟩ := (seg_cons _ _ _ _ _ _ _).1 h
    rcases List.mem_cons.1 hx with rfl | hx
    · exact ha
    · exact ih a e.next p1 q1 hs x hx

/-- The last entry of a non-empty stretch belongs to it, and its successor link is the
exit of the stretch. -/
theorem seg_last {mem : Ptr → Option nurkel_dlist_entry_t} :
    ∀ (l : List Ptr) (p q p1 q1 : Ptr), l ≠ [] → Seg mem p q l p1 q1 →
      p1 ∈ l ∧ ∃ e, mem p1 = some e ∧ e.next = q1 := by
  intro l
  induction l with
  | nil => intro p q p1 q1 h _; exact absurd rfl h
  | cons a l ih =>
    intro p q p1 q1 _ h
    obtain ⟨_, _, e, he, _, hs⟩ := (seg_cons _ _ _ _ _ _ _).1 h
    cases l with
    | nil =>
      obtain ⟨h1, h2⟩ := (seg_nil _ _ _ _ _).1 hs
      subst h1
      exact ⟨List.mem_singleton.2 rfl, e, he, h2.symm⟩
    | cons b t =>
      have h3 := ih a e.next p1 q1 (List.cons_ne_nil _ _) hs
      exact ⟨List.mem_cons_of_mem _ h3.1, h3.2⟩

/-- Redirecting the successor link of the last entry of a stretch moves its exit. -/
theorem seg_set_last_next {mem : Ptr → Option nurkel_dlist_entry_t} (r : Ptr) :
    ∀ (l : List Ptr) (p q p1 q1 : Ptr), l ≠ [] → l.Nodup → Seg mem p q l p1 q1 →
      Seg (set_next mem p1 r) p q l p1 r := by
  intro l
  induction l with
  | nil => intro p q p1 q1 h _ _; exact absurd rfl h
  | cons a l ih =>
    intro p q p1 q1 _ hnd h
    obtain ⟨hq, ha, e, he, hp, hs⟩ := (seg_cons _ _ _ _ _ _ _).1 h
    cases l with
    | nil =>
      obtain ⟨h1, _⟩ := (seg_nil _ _ _ _ _).1 hs
      subst h1
      exact (seg_cons _ _ _ _ _ _ _).2
        ⟨hq, ha, { e with next := r }, set_next_same _ _ _ _ he, hp, rfl, rfl⟩
    | cons b t =>
      have hl := seg_last (b :: t) a e.next p1 q1 (List.cons_ne_nil _ _) hs
      have hne : a ≠ p1 := fun heq => (List.nodup_cons.1 hnd).1 (heq ▸ hl.1)
      exact (seg_cons _ _ _ _ _ _ _).2
        ⟨hq, ha, e, by rw [set_next_other _ _ _ _ hne]; exact he, hp,
          ih a e.next p1 q1 (List.cons_ne_nil _ _) (List.nodup_cons.1 hnd).2 hs⟩

/-- Redirecting the predecessor link of the first entry of a stretch moves its origin. -/
theorem seg_set_first_prev {mem : Ptr → Option nurkel_dlist_entry_t} (r a : Ptr)
    (l : List Ptr) (p q p1 q1 : Ptr) (hnd : (a :: l).Nodup)
    (h : Seg mem p q (a :: l) p1 q1) : Seg (set_prev mem a r) r q (a :: l) p1 q1 := by
  obtain ⟨hq, ha, e, he, _, hs⟩ := (seg_cons _ _ _ _ _ _ _).1 h
  exact (seg_cons _ _ _ _ _ _ _).2
    ⟨hq, ha, { e with prev := r }, set_prev_same _ _ _ _ he, rfl,
      seg_frame l a e.next p1 q1
        (fun x hx => set_prev_other _ _ _ _
          (fun heq => (List.nodup_cons.1 hnd).1 (heq ▸ hx))) hs⟩

/-- The freshly allocated tracker holds no entry. -/
theorem holds_alloc : Holds nurkel_dlist_alloc [] :=
  ⟨⟨NULL, (seg_nil _ _ _ _ _).2 ⟨rfl, rfl⟩⟩, List.nodup_nil, rfl,
    fun _ h => absurd h (List.not_mem_nil _), Nat.one_pos⟩

/-- Insertion puts the new entry, whose token is the allocation mark, in front. -/
theorem holds_insert (d : nurkel_dlist_t) (l : List Ptr) (item : Ptr) (h : Holds d l) :
    (nurkel_dlist_insert d item).1 = d.brk ∧
      Holds (nurkel_dlist_insert d item).2 (d.brk :: l) := by
  obtain ⟨⟨last, hseg⟩, hnd, hlen, hbrk, hpos⟩ := h
  have hfresh : d.brk ∉ l := fun hm => Nat.lt_irrefl _ (hbrk _ hm)
  have hbn : d.brk ≠ NULL := Nat.ne_of_gt hpos
  refine ⟨rfl, ?_, List.nodup_cons.2 ⟨hfresh, hnd⟩, ?_, ?_, ?_⟩
  · cases l with
    | nil =>
      obtain ⟨_, hh⟩ := (seg_nil _ _ _ _ _).1 hseg
      refine ⟨d.brk, (seg_cons _ _ _ _ _ _ _).2 ⟨rfl, hbn, ⟨item, NULL, d.head⟩, ?_, rfl, ?_⟩⟩
      · simp [nurkel_dlist_insert, ← hh, mem_write]
      · exact (seg_nil _ _ _ _ _).2 ⟨rfl, hh⟩
    | cons b t =>
      obtain ⟨hq, hb, e, he, hp, hs⟩ := (seg_cons _ _ _ _ _ _ _).1 hseg
      have hbb : b ≠ d.brk := fun heq => hfresh (heq ▸ List.mem_cons_self _ _)
      have hhead : d.head ≠ NULL := by rw [hq]; exact hb
      have h1 : Seg (mem_write d.mem d.brk (some ⟨item, NULL, d.head⟩)) NULL d.head (b :: t)
          last NULL :=
        seg_frame (b :: t) _ _ _ _
          (fun x hx => mem_write_other _ _ _ _ (fun heq => hfresh (heq ▸ hx))) hseg
      have h2 := seg_set_first_prev d.brk b t NULL d.head last NULL hnd h1
      refine ⟨last, (seg_cons _ _ _ _ _ _ _).2 ⟨rfl, hbn, ⟨item, NULL, d.head⟩, ?_, rfl, ?_⟩⟩
      · simp only [nurkel_dlist_insert, hhead, ne_eq, not_false_eq_true, if_true]
        rw [hq, set_prev_other _ _ _ _ hbb.symm]
        simp [mem_write]
      · simp only [nurkel_dlist_insert, hhead, ne_eq, not_false_eq_true, if_true]
        rw [hq] at h2 ⊢
        exact h2
  · simp [nurkel_dlist_insert, hlen]
  · intro a ha
    rcases List.mem_cons.1 ha with rfl | ha
    · simp [nurkel_dlist_insert]
    · exact Nat.lt_succ_of_lt (hbrk a ha)
  · simp [nurkel_dlist_insert]

/-- Unlinking the entry `a` of a chain through `l1 ++ a :: l2` leaves a chain through
`l1 ++ l2`. -/
theorem seg_unlink {mem : Ptr → Option nurkel_dlist_entry_t} (l1 l2 : List Ptr)
    (a head last : Ptr) (e : nurkel_dlist_entry_t) (hnd : (l1 ++ a :: l2).Nodup)
    (hseg : Seg mem NULL head (l1 ++ a :: l2) last NULL) (he : mem a = some e) :
    ∃ last1, Seg
      (mem_write
        (if e.next ≠ NULL then
          set_prev (if e.prev ≠ NULL then set_next mem e.prev e.next else mem) e.next e.prev
        else (if e.prev ≠ NULL then set_next mem e.prev e.next else mem)) a none)
      NULL (if e.prev ≠ NULL then head else e.next) (l1 ++ l2) last1 NULL := by
  obtain ⟨pm, qm, hs1, hs2⟩ := (seg_append _ _ _ _ _ _).1 hseg
  obtain ⟨_, _, e1, he1, hprev, hs3⟩ := (seg_cons _ _ _ _ _ _ _).1 hs2
  have hee : e1 = e := Option.some.inj (he1.symm.trans he)
  subst hee
  have hnd1 : l1.Nodup := (List.nodup_append.1 hnd).1
  have hnd2 : l2.Nodup := (List.nodup_cons.1 (List.nodup_append.1 hnd).2.1).2
  have ha1 : ∀ x ∈ l1, x ≠ a := fun x hx heq =>
    (List.nodup_append.1 hnd).2.2 hx (heq ▸ List.mem_cons_self _ _)
  have ha2 : ∀ x ∈ l2, x ≠ a := fun x hx heq =>
    (List.nodup_cons.1 (List.nodup_append.1 hnd).2.1).1 (heq ▸ hx)
  have h12 : ∀ x ∈ l1, ∀ y ∈ l2, x ≠ y := fun x hx y hy heq =>
    (List.nodup_append.1 hnd).2.2 hx (heq ▸ List.mem_cons_of_mem _ hy)
  rcases l1 with _ | ⟨y, t⟩ <;> rcases l2 with _ | ⟨b, u⟩
  · -- `a` is the only entry
    have hp : e1.prev = NULL := hprev.trans ((seg_nil _ _ _ _ _).1 hs1).1
    have hn : e1.next = NULL := ((seg_nil _ _ _ _ _).1 hs3).2.symm
    simp only [hp, hn, ne_eq, not_true_eq_false, if_false]
    exact ⟨NULL, rfl, rfl⟩
  · -- `a` is the first entry and has a successor `b`
    have hp : e1.prev = NULL := hprev.trans ((seg_nil _ _ _ _ _).1 hs1).1
    have hb : e1.next = b := ((seg_cons _ _ _ _ _ _ _).1 hs3).1
    have hn : e1.next ≠ NULL := by rw [hb]; exact ((seg_cons _ _ _ _ _ _ _).1 hs3).2.1
    simp only [hp, hn, ne_eq, not_true_eq_false, not_false_eq_true, if_false, if_true,
      List.nil_append]
    have h2 := seg_set_first_prev NULL b u a e1.next last NULL hnd2 hs3
    rw [hb] at h2 ⊢
    exact ⟨last, seg_frame (b :: u) _ _ _ _
      (fun x hx => mem_write_other _ _ _ _ (ha2 x hx)) h2⟩
  · -- `a` is the last entry and has a predecessor
    have hl := seg_last (y :: t) NULL head pm qm (List.cons_ne_nil _ _) hs1
    have hpm : pm ≠ NULL := seg_ne_null _ _ _ _ _ hs1 pm hl.1
    have hp : e1.prev ≠ NULL := by rw [hprev]; exact hpm
    have hn : e1.next = NULL := ((seg_nil _ _ _ _ _).1 hs3).2.symm
    simp only [hp, hn, ne_eq, not_true_eq_false, not_false_eq_true, if_false, if_true,
      List.append_nil]
    have h1 := seg_set_last_next NULL (y :: t) NULL head pm qm (List.cons_ne_nil _ _) hnd1 hs1
    rw [hprev]
    exact ⟨pm, seg_frame (y :: t) _ _ _ _
      (fun x hx => mem_write_other _ _ _ _ (ha1 x hx)) h1⟩
  · -- `a` lies between a predecessor and a successor `b`
    have hl := seg_last (y :: t) NULL head pm qm (List.cons_ne_nil _ _) hs1
    have hpm : pm ≠ NULL := seg_ne_null _ _ _ _ _ hs1 pm hl.1
    have hp : e1.prev ≠ NULL := by rw [hprev]; exact hpm
    have hb : e1.next = b := ((seg_cons _ _ _ _ _ _ _).1 hs3).1
    have hn : e1.next ≠ NULL := by rw [hb]; exact ((seg_cons _ _ _ _ _ _ _).1 hs3).2.1
    simp only [hp, hn, ne_eq, not_false_eq_true, if_true]
    rw [hprev, hb]
    rw [hb] at hs3
    have h1 := seg_set_last_next b (y :: t) NULL head pm qm (List.cons_ne_nil _ _) hnd1 hs1
    have h1f : Seg (mem_write (set_prev (set_next mem pm b) b pm) a none) NULL head (y :: t)
        pm b :=
      seg_frame (y :: t) _ _ _ _
        (fun x hx => by
          rw [mem_write_other _ _ _ _ (ha1 x hx),
            set_prev_other _ _ _ _ (h12 x hx b (List.mem_cons_self _ _))]) h1
    have h3 : Seg (set_next mem pm b) a b (b :: u) last NULL :=
      seg_frame (b :: u) _ _ _ _
        (fun x hx => set_next_other _ _ _ _ (fun heq => h12 pm hl.1 x hx heq.symm)) hs3
    have h4 := seg_set_first_prev pm b u a b last NULL hnd2 h3
    have h4f : Seg (mem_write (set_prev (set_next mem pm b) b pm) a none) pm b (b :: u)
        last NULL :=
      seg_frame (b :: u) _ _ _ _ (fun x hx => mem_write_other _ _ _ _ (ha2 x hx)) h4
    exact ⟨last, (seg_append _ _ _ _ _ _).2 ⟨pm, b, h1f, h4f⟩⟩

/-- Removing an entry the tracker holds succeeds and leaves the other entries. -/
theorem holds_remove (d : nurkel_dlist_t) (l : List Ptr) (a : Ptr) (h : Holds d l)
    (ha : a ∈ l) : ∃ d1, nurkel_dlist_remove d a = .ok d1 ∧ Holds d1 (l.erase a) := by
  obtain ⟨⟨last, hseg⟩, hnd, hlen, hbrk, hpos⟩ := h
  obtain ⟨l1, l2, rfl⟩ := List.append_of_mem ha
  have ha1 : a ∉ l1 := fun hm =>
    (List.nodup_append.1 hnd).2.2 hm (List.mem_cons_self _ _)
  have herase : (l1 ++ a :: l2).erase a = l1 ++ l2 := by
    rw [List.erase_append_right _ ha1, List.erase_cons_head]
  obtain ⟨pm, qm, _, hs2⟩ := (seg_append _ _ _ _ _ _).1 hseg
  obtain ⟨_, _, e, he, _, _⟩ := (seg_cons _ _ _ _ _ _ _).1 hs2
  obtain ⟨last1, hun⟩ := seg_unlink l1 l2 a d.head last e hnd hseg he
  refine ⟨_, by unfold nurkel_dlist_remove; rw [he]; rfl, ?_⟩
  rw [herase]
  refine ⟨⟨last1, hun⟩, ?_, ?_, ?_, hpos⟩
  · rw [← herase]
    exact hnd.erase a
  · show d.len - 1 = (l1 ++ l2).length
    rw [hlen]
    simp only [List.length_append, List.length_cons]
    omega
  · intro x hx
    apply hbrk
    rcases List.mem_append.1 hx with hx | hx
    · exact List.mem_append_left _ hx
    · exact List.mem_append_right _ (List.mem_cons_of_mem _ hx)

/-- After the insertions the tracker holds the new entries, latest first, in front of the
entries it held before. -/
theorem insert_all_holds (items : List Ptr) :
    ∀ (d : nurkel_dlist_t) (l : List Ptr), Holds d l →
      Holds (insert_all d items).2 ((insert_all d items).1.reverse ++ l) := by
  induction items with
  | nil => intro d l h; exact h
  | cons item items ih =>
    intro d l h
    have h1 := holds_insert d l item h
    have h2 := ih (nurkel_dlist_insert d item).2 (d.brk :: l) h1.2
    simp only [insert_all, List.reverse_cons, List.append_assoc, List.singleton_append, h1.1]
    exact h2

/-- Removing, in any order, exactly the entries a tracker holds empties it. -/
theorem remove_all_holds (order : List Ptr) :
    ∀ (d : nurkel_dlist_t) (l : List Ptr), Holds d l → order.Perm l →
      ∃ d1, remove_all d order = .ok d1 ∧ Holds d1 [] := by
  induction order with
  | nil =>
    intro d l h hperm
    rw [List.nil_perm.1 hperm] at h
    exact ⟨d, rfl, h⟩
  | cons a order ih =>
    intro d l h hperm
    have ha : a ∈ l := hperm.mem_iff.1 (List.mem_cons_self _ _)
    obtain ⟨d1, hd1, hh1⟩ := holds_remove d l a h ha
    have hperm1 : order.Perm (l.erase a) :=
      List.Perm.cons_inv (hperm.trans (List.perm_cons_erase ha))
    obtain ⟨d2, hd2, hh2⟩ := ih d1 (l.erase a) hh1 hperm1
    exact ⟨d2, by simp [remove_all, hd1, hd2, bind, Except.bind], hh2⟩

/-- C7: for every list of items (of any length N) inserted one by one into the empty
tracker, removing the N returned entries in any order, each once, succeeds and leaves the
tracker with `nurkel_dlist_len` equal to `0` and `nurkel_dlist_iter` giving `NULL`. -/
theorem dlist_insert_remove_all (items order : List Ptr)
    (h : order.Perm (insert_all nurkel_dlist_alloc items).1) :
    ∃ d, remove_all (insert_all nurkel_dlist_alloc items).2 order = .ok d ∧
      nurkel_dlist_len d = 0 ∧ nurkel_dlist_iter d = NULL := by
  have h1 := insert_all_holds items nurkel_dlist_alloc [] holds_alloc
  rw [List.append_nil] at h1
  obtain ⟨d, hd, ⟨_, hseg⟩, _, hlen, _, _⟩ :=
    remove_all_holds order _ _ h1 (h.trans (List.reverse_perm _).symm)
  exact ⟨d, hd, hlen, ((seg_nil _ _ _ _ _).1 hseg).2.symm⟩

/-- C7, for three items whose entries (tokens `1`, `2`, `3`) are removed in the order
second, third, first. -/
theorem dlist_insert_remove_all_witness :
    ∃ d, remove_all (insert_all nurkel_dlist_alloc [10, 20, 30]).2 [2, 3, 1] = .ok d ∧
      nurkel_dlist_len d = 0 ∧ nurkel_dlist_iter d = NULL :=
  dlist_insert_remove_all [10, 20, 30] [2, 3, 1] (by decide)

end Nurkel
